import Mathlib

/-!
# Verification of the symbolista concurrent counting pipeline

Shallow embedding of the core of the `ogdakke/symbolista` repository:
the per-file worker scan (`internal/concurrent/worker.go`), the result
collector (`ResultCollector` in the concurrent package), the discovery
classification (`internal/concurrent/discovery.go`), the post-processing
of `AnalyzeSymbols` (`internal/counter/counter.go`, the variant with
sequence support), the extension ignorer (`internal/ignorer/extension.go`)
and the hierarchical gitignore matcher (`GitignoreMatcher` in the ignorer
package).

Modelling conventions:
* Go byte values are `Nat` in `0..255`; Go `rune` keys of the character
  map are `Nat` code points.
* A Go map is modelled extensionally as a total function `Nat → Nat`
  with the zero value for absent keys (exactly Go's lookup semantics for
  `m[k] += v`).  Where a claim depends on the finite entry set of a map
  (map length, iteration) the map is instead modelled as an association
  list with pairwise distinct keys.
* Go `int` counters only ever grow by small increments here and are
  modelled as `Nat`; the `uint32` sequence counts wrap at `2^32`, which
  is kept explicit as `% 2^32`.
* Timing fields (`ResultTiming`, `time.Since`) are diagnostic only and
  are omitted from the state.
-/

namespace Symbolista

/-- Wrap-around modulus of Go's `uint32` arithmetic. -/
def u32Mod : Nat := 4294967296

/-- `unicode.IsGraphic(rune(b))` for a single byte `b` (so a code point in
`0..255`).  Transcribed from Go's Latin-1 `properties` table: graphic are
`0x20..0x7E`, `0xA0`, `0xA1..0xAC` and `0xAE..0xFF`; control bytes,
`0x7F..0x9F` and the soft hyphen `0xAD` are not. -/
def unicodeIsGraphic (b : Nat) : Bool :=
  (32 ≤ b && b ≤ 126) || b == 160 || (161 ≤ b && b ≤ 172) || (174 ≤ b && b ≤ 255)

/-- `unicode.IsSpace(rune(b))` for a single byte: tab, LF, VT, FF, CR,
space, NEL (`0x85`) and NBSP (`0xA0`). -/
def unicodeIsSpace (b : Nat) : Bool :=
  b == 9 || b == 10 || b == 11 || b == 12 || b == 13 || b == 32 || b == 133 || b == 160

/-- The worker's per-byte filter in `processFile`: the byte is skipped via
`continue` iff `(!IsGraphic && !IsSpace) || (AsciiOnly && b > 127)`.
`countedByte` is the negation: the byte gets counted. -/
def countedByte (asciiOnly : Bool) (b : Nat) : Bool :=
  (unicodeIsGraphic b || unicodeIsSpace b) && !(asciiOnly && decide (127 < b))

/-- The 16-bit 2-gram key `uint16(b1)<<8 | uint16(b2)` of
`WorkerPool.processFile` (`worker.go`).  For bytes the shift cannot
overflow, but the `uint16` width is kept explicit. -/
def pack2 (b1 b2 : Nat) : Nat := (b1 * 256 + b2) % 65536

/-- The 24-bit 3-gram key `uint32(b0)<<16 | uint32(b1)<<8 | uint32(b2)` of
`WorkerPool.processFile`. -/
def pack3 (b0 b1 b2 : Nat) : Nat := (b0 * 65536 + b1 * 256 + b2) % u32Mod

/-- `byte(k2 >> 8)` — high byte of a packed 2-gram key, as unpacked in
`AnalyzeSymbols` (`counter.go`). -/
def unpack2Hi (k : Nat) : Nat := k / 256 % 256

/-- `byte(k2)` — low byte of a packed 2-gram key. -/
def unpack2Lo (k : Nat) : Nat := k % 256

/-- `byte(k3 >> 16)` — high byte of a packed 3-gram key. -/
def unpack3Hi (k : Nat) : Nat := k / 65536 % 256

/-- `byte(k3 >> 8)` — middle byte of a packed 3-gram key. -/
def unpack3Mid (k : Nat) : Nat := k / 256 % 256

/-- `byte(k3)` — low byte of a packed 3-gram key. -/
def unpack3Lo (k : Nat) : Nat := k % 256

/-! ## The worker scan (`WorkerPool.processFile`, `worker.go`)

The loop state carries the sliding-window bytes `b0`, `b1` (Go locals,
zero initialised), the file-local character map and counter, and the two
packed sequence maps.  The loop index `i` is threaded explicitly because
the Go code guards the 2-gram/3-gram updates with `i >= 1` / `i >= 2`. -/

structure ProcState where
  b0 : Nat
  b1 : Nat
  charMap : Nat → Nat
  charCount : Nat
  seqMap2 : Nat → Nat
  seqMap3 : Nat → Nat

/-- Initial loop state of `processFile`: fresh maps, zeroed window. -/
def initProcState : ProcState :=
  { b0 := 0, b1 := 0, charMap := fun _ => 0, charCount := 0,
    seqMap2 := fun _ => 0, seqMap3 := fun _ => 0 }

/-- `m[k]++` on a `map[rune]int`. -/
def bumpNat (m : Nat → Nat) (k : Nat) : Nat → Nat :=
  fun k' => if k' = k then m k' + 1 else m k'

/-- `m[k]++` on a map with `uint32` values (wraps at `2^32`). -/
def bumpU32 (m : Nat → Nat) (k : Nat) : Nat → Nat :=
  fun k' => if k' = k then (m k' + 1) % u32Mod else m k'

/-- One iteration of the `processFile` loop body at index `i` reading byte
`b2`: skip the byte entirely if it fails the graphic/space or ASCII
filter; otherwise count the character, and (when sequences are enabled)
bump the 2-gram map at `pack2 b1 b2` if `i ≥ 1` and the 3-gram map at
`pack3 b0 b1 b2` if `i ≥ 2`; finally slide the window `b0, b1 = b1, b2`. -/
def processByte (asciiOnly seqEnabled : Bool) (i : Nat) (s : ProcState) (b2 : Nat) :
    ProcState :=
  if countedByte asciiOnly b2 then
    { b0 := s.b1
      b1 := b2
      charMap := bumpNat s.charMap b2
      charCount := s.charCount + 1
      seqMap2 := if seqEnabled && decide (1 ≤ i) then bumpU32 s.seqMap2 (pack2 s.b1 b2)
                 else s.seqMap2
      seqMap3 := if seqEnabled && decide (2 ≤ i) then bumpU32 s.seqMap3 (pack3 s.b0 s.b1 b2)
                 else s.seqMap3 }
  else s

/-- The `for i := 0; i < len(content); i++` loop of `processFile`,
starting at index `i` with state `s`. -/
def procLoop (asciiOnly seqEnabled : Bool) : Nat → ProcState → List Nat → ProcState
  | _, s, [] => s
  | i, s, b :: rest =>
      procLoop asciiOnly seqEnabled (i + 1) (processByte asciiOnly seqEnabled i s b) rest

/-- `WorkerPool.processFile` run on the lower-cased byte stream
(`content` is the byte sequence after `strings.ToLower`). -/
def processFile (asciiOnly seqEnabled : Bool) (content : List Nat) : ProcState :=
  procLoop asciiOnly seqEnabled 0 initProcState content

/-! ## The result collector (`ResultCollector`, concurrent package) -/

/-- `CharCountResult` — one worker's per-file partial result.  The maps
are extensional (`Nat → Nat`, absent key = 0). -/
structure CharCountResult where
  CharMap : Nat → Nat
  SequenceMap2 : Nat → Nat
  SequenceMap3 : Nat → Nat
  FileCount : Nat
  CharCount : Nat

/-- Package a finished worker scan as the `CharCountResult` returned by
`processFile` (`FileCount` is the literal `1` of the Go code). -/
def processFileResult (asciiOnly seqEnabled : Bool) (content : List Nat) :
    CharCountResult :=
  let st := processFile asciiOnly seqEnabled content
  { CharMap := st.charMap, SequenceMap2 := st.seqMap2, SequenceMap3 := st.seqMap3,
    FileCount := 1, CharCount := st.charCount }

/-- The collector's aggregate state (`ResultCollector`), timing omitted. -/
@[ext] structure ResultCollector where
  totalCharMap : Nat → Nat
  totalSequenceMap2 : Nat → Nat
  totalSequenceMap3 : Nat → Nat
  totalFiles : Nat
  totalChars : Nat
  filesFound : Nat
  filesIgnored : Nat

/-- `NewResultCollector()`: empty maps, zeroed counters. -/
def newResultCollector : ResultCollector :=
  { totalCharMap := fun _ => 0, totalSequenceMap2 := fun _ => 0,
    totalSequenceMap3 := fun _ => 0,
    totalFiles := 0, totalChars := 0, filesFound := 0, filesIgnored := 0 }

/-- `ResultCollector.AddResult`: add every entry of the partial maps into
the global maps (`uint32` sums wrap) and add the file/char counts.
Iterating the partial map's entries and `+=`-ing them is extensionally
the pointwise sum, since absent keys carry the zero value. -/
def addResult (rc : ResultCollector) (r : CharCountResult) : ResultCollector :=
  { totalCharMap := fun k => rc.totalCharMap k + r.CharMap k
    totalSequenceMap2 := fun k => (rc.totalSequenceMap2 k + r.SequenceMap2 k) % u32Mod
    totalSequenceMap3 := fun k => (rc.totalSequenceMap3 k + r.SequenceMap3 k) % u32Mod
    totalFiles := rc.totalFiles + r.FileCount
    totalChars := rc.totalChars + r.CharCount
    filesFound := rc.filesFound
    filesIgnored := rc.filesIgnored }

/-- `ResultCollector.IncrementFound`. -/
def incrementFound (rc : ResultCollector) : ResultCollector :=
  { rc with filesFound := rc.filesFound + 1 }

/-- `ResultCollector.IncrementIgnored`. -/
def incrementIgnored (rc : ResultCollector) : ResultCollector :=
  { rc with filesIgnored := rc.filesIgnored + 1 }

end Symbolista

namespace Symbolista

/-! ## C2 — packing round-trip -/

/-- **C2** For all bytes `a`, `b`, `c`: unpacking the worker's 16-bit key
`uint16(a)<<8|uint16(b)` yields exactly `(a, b)`, and unpacking the
24-bit key `uint32(a)<<16|uint32(b)<<8|uint32(c)` yields exactly
`(a, b, c)`: the packing of `processFile` and the unpacking of
`AnalyzeSymbols` form a lossless round trip on every n-gram key. -/
theorem pack_unpack_roundTrip (a b c : Nat)
    (ha : a < 256) (hb : b < 256) (hc : c < 256) :
    unpack2Hi (pack2 a b) = a ∧ unpack2Lo (pack2 a b) = b ∧
    unpack3Hi (pack3 a b c) = a ∧ unpack3Mid (pack3 a b c) = b ∧
    unpack3Lo (pack3 a b c) = c := by
  unfold pack2 pack3 unpack2Hi unpack2Lo unpack3Hi unpack3Mid unpack3Lo u32Mod
  omega

/-- Witness for `pack_unpack_roundTrip` at the byte triple
`(0x61, 0x62, 0xFF)`. -/
theorem pack_unpack_roundTrip_witness :
    unpack2Hi (pack2 97 98) = 97 ∧ unpack2Lo (pack2 97 98) = 98 ∧
    unpack3Hi (pack3 97 98 255) = 97 ∧ unpack3Mid (pack3 97 98 255) = 98 ∧
    unpack3Lo (pack3 97 98 255) = 255 :=
  pack_unpack_roundTrip 97 98 255 (by decide) (by decide) (by decide)

/-! ## C1 — order-independence of the collector merge -/

/-- Two `AddResult` calls commute: merging `a` then `b` into a collector
state gives the same aggregate as merging `b` then `a` (counter addition
and `uint32` wrap-around addition are commutative and associative). -/
theorem addResult_right_comm (s : ResultCollector) (a b : CharCountResult) :
    addResult (addResult s a) b = addResult (addResult s b) a := by
  unfold addResult
  ext k <;> simp only [Nat.mod_add_mod] <;> first
  | omega
  | (congr 1; omega)

/-- **C1** For every multiset of per-file partial results, folding the
collector's `AddResult` over them in any order — any permutation, and any
partition of the work into per-worker batches — yields the same final
aggregate state as merging the list sequentially in a single task. -/
theorem addResult_order_independent
    (parts : List (List CharCountResult)) (l : List CharCountResult)
    (h : parts.flatten.Perm l) :
    parts.foldl (fun s part => part.foldl addResult s) newResultCollector
      = l.foldl addResult newResultCollector := by
  rw [← List.foldl_flatten]
  exact h.foldl_eq' (fun x _ y _ z => addResult_right_comm z x y) _

/-- A concrete per-file partial result (two `'a'` characters) used by the
order-independence witness. -/
def sampleResult1 : CharCountResult :=
  { CharMap := fun k => if k = 97 then 2 else 0, SequenceMap2 := fun _ => 0,
    SequenceMap3 := fun _ => 0, FileCount := 1, CharCount := 2 }

/-- A concrete per-file partial result (three `'b'` characters) used by
the order-independence witness. -/
def sampleResult2 : CharCountResult :=
  { CharMap := fun k => if k = 98 then 3 else 0, SequenceMap2 := fun _ => 0,
    SequenceMap3 := fun _ => 0, FileCount := 1, CharCount := 3 }

/-- Witness for `addResult_order_independent`: two singleton worker
batches merged against the reversed delivery order. -/
theorem addResult_order_independent_witness :
    ([[sampleResult1], [sampleResult2]] : List (List CharCountResult)).flatten.Perm
        [sampleResult2, sampleResult1] ∧
    ([[sampleResult1], [sampleResult2]] : List (List CharCountResult)).foldl
        (fun s part => part.foldl addResult s) newResultCollector
      = [sampleResult2, sampleResult1].foldl addResult newResultCollector := by
  have hp : ([[sampleResult1], [sampleResult2]] :
      List (List CharCountResult)).flatten.Perm [sampleResult2, sampleResult1] := by
    simpa using List.Perm.swap sampleResult2 sampleResult1 []
  exact ⟨hp, addResult_order_independent _ _ hp⟩

/-! ## C3 / C4 — what the worker scan actually records

Specification-side functions, written from the claims' words: the packed
keys of all contiguous adjacent byte pairs and triples of a stream. -/

/-- All 16-bit keys of contiguous adjacent byte pairs of a stream
(the claim's reading of the 2-gram extraction). -/
def adj2Keys : List Nat → List Nat
  | a :: b :: rest => pack2 a b :: adj2Keys (b :: rest)
  | _ => []

/-- All 24-bit keys of contiguous adjacent byte triples of a stream
(the claim's reading of the 3-gram extraction). -/
def adj3Keys : List Nat → List Nat
  | a :: b :: c :: rest => pack3 a b c :: adj3Keys (b :: c :: rest)
  | _ => []

/-- The character map after the scan loop counts exactly the bytes that
pass the graphic/space and ASCII filters, each at its own byte value. -/
theorem procLoop_charMap (asciiOnly seqEnabled : Bool) (rest : List Nat) :
    ∀ (i : Nat) (s : ProcState) (k : Nat),
      (procLoop asciiOnly seqEnabled i s rest).charMap k
        = s.charMap k + (rest.filter (countedByte asciiOnly)).count k := by
  induction rest with
  | nil => intro i s k; simp [procLoop]
  | cons b rest ih =>
      intro i s k
      by_cases hcb : countedByte asciiOnly b = true
      · simp only [procLoop, processByte, hcb, if_pos, List.filter_cons_of_pos hcb, ih,
          List.count_cons]
        simp only [bumpNat]
        by_cases hk : b = k
        · subst hk; simp; omega
        · simp [hk, Ne.symm hk]
      · simp only [Bool.not_eq_true] at hcb
        simp [procLoop, processByte, hcb, List.filter_cons_of_neg, ih]

/-- The character counter after the scan loop equals the number of bytes
passing the filters. -/
theorem procLoop_charCount (asciiOnly seqEnabled : Bool) (rest : List Nat) :
    ∀ (i : Nat) (s : ProcState),
      (procLoop asciiOnly seqEnabled i s rest).charCount
        = s.charCount + (rest.filter (countedByte asciiOnly)).length := by
  induction rest with
  | nil => intro i s; simp [procLoop]
  | cons b rest ih =>
      intro i s
      by_cases hcb : countedByte asciiOnly b = true
      · simp only [procLoop, processByte, hcb, if_pos, List.filter_cons_of_pos hcb, ih,
          List.length_cons]
        omega
      · simp only [Bool.not_eq_true] at hcb
        simp [procLoop, processByte, hcb, List.filter_cons_of_neg, ih]

/-- The 2-gram map after the scan loop, on a suffix whose bytes all pass
the filters, once the index guard `i ≥ 1` is permanently satisfied: the
recorded keys are exactly the adjacent pairs of `s.b1 :: rest`. -/
theorem procLoop_seqMap2 (asciiOnly : Bool) (rest : List Nat) :
    ∀ (i : Nat) (s : ProcState) (k : Nat), 1 ≤ i →
      (∀ b ∈ rest, countedByte asciiOnly b = true) →
      s.seqMap2 k < u32Mod →
      (procLoop asciiOnly true i s rest).seqMap2 k
        = (s.seqMap2 k + (adj2Keys (s.b1 :: rest)).count k) % u32Mod := by
  induction rest with
  | nil =>
      intro i s k _ _ hlt
      simp [procLoop, adj2Keys, Nat.mod_eq_of_lt hlt]
  | cons b rest ih =>
      intro i s k hi hall hlt
      have hcb : countedByte asciiOnly b = true := hall b (by simp)
      have hall' : ∀ x ∈ rest, countedByte asciiOnly x = true := by
        intro x hx; exact hall x (by simp [hx])
      simp only [procLoop, processByte, hcb, if_pos, decide_eq_true hi, Bool.and_self,
        Bool.true_and, if_true]
      have hguard : (true && decide (1 ≤ i)) = true := by simp [hi]
      rw [ih (i + 1) _ k (by omega) hall' (by
        simp only [hguard, if_true, bumpU32]
        by_cases hk : k = pack2 s.b1 b
        · simp only [hk, if_pos rfl]
          exact Nat.mod_lt _ (by decide)
        · simpa [hk] using hlt)]
      simp only [hguard, if_true, bumpU32, adj2Keys, List.count_cons]
      by_cases hk : k = pack2 s.b1 b
      · simp only [hk, if_pos rfl, beq_self_eq_true, if_true, Nat.mod_add_mod]
        congr 1
        omega
      · have : (pack2 s.b1 b == k) = false := by
          simpa [beq_iff_eq] using fun h => hk h.symm
        simp [hk, this]

/-- The 3-gram map after the scan loop, on a suffix whose bytes all pass
the filters, once the index guard `i ≥ 2` is permanently satisfied: the
recorded keys are exactly the adjacent triples of `s.b0 :: s.b1 :: rest`. -/
theorem procLoop_seqMap3 (asciiOnly : Bool) (rest : List Nat) :
    ∀ (i : Nat) (s : ProcState) (k : Nat), 2 ≤ i →
      (∀ b ∈ rest, countedByte asciiOnly b = true) →
      s.seqMap3 k < u32Mod →
      (procLoop asciiOnly true i s rest).seqMap3 k
        = (s.seqMap3 k + (adj3Keys (s.b0 :: s.b1 :: rest)).count k) % u32Mod := by
  induction rest with
  | nil =>
      intro i s k _ _ hlt
      simp [procLoop, adj3Keys, Nat.mod_eq_of_lt hlt]
  | cons b rest ih =>
      intro i s k hi hall hlt
      have hcb : countedByte asciiOnly b = true := hall b (by simp)
      have hall' : ∀ x ∈ rest, countedByte asciiOnly x = true := by
        intro x hx; exact hall x (by simp [hx])
      simp only [procLoop, processByte, hcb, if_pos]
      have hguard : (true && decide (2 ≤ i)) = true := by simp [hi]
      rw [ih (i + 1) _ k (by omega) hall' (by
        simp only [hguard, if_true, bumpU32]
        by_cases hk : k = pack3 s.b0 s.b1 b
        · simp only [hk, if_pos rfl]
          exact Nat.mod_lt _ (by decide)
        · simpa [hk] using hlt)]
      simp only [hguard, if_true, bumpU32, adj3Keys, List.count_cons]
      by_cases hk : k = pack3 s.b0 s.b1 b
      · simp only [hk, if_pos rfl, beq_self_eq_true, if_true, Nat.mod_add_mod]
        congr 1
        omega
      · have : (pack3 s.b0 s.b1 b == k) = false := by
          simpa [beq_iff_eq] using fun h => hk h.symm
        simp [hk, this]

/-- **C3 (amended)** For file content all of whose lower-cased bytes pass
the worker's graphic-or-space and ASCII filters, the worker records
exactly the claim's n-grams: the 2-gram map counts, for every 16-bit key,
the occurrences of that key among the packed adjacent byte pairs
`(content[i-1], content[i])`, and the 3-gram map the occurrences among
the packed adjacent triples — counts taken modulo the `uint32` wrap.
(The original claim, quantified over *all* content, is refuted by
`processFile_ngram_claim_counterexample`: a byte skipped by the filter
produces no increment at its position, and later increments reuse the
stale window bytes, so recorded n-grams need not be contiguous.) -/
theorem processFile_ngram_adjacent (asciiOnly : Bool) (content : List Nat)
    (hall : ∀ b ∈ content, countedByte asciiOnly b = true) (k : Nat) :
    (processFile asciiOnly true content).seqMap2 k
        = (adj2Keys content).count k % u32Mod ∧
    (processFile asciiOnly true content).seqMap3 k
        = (adj3Keys content).count k % u32Mod := by
  match content, hall with
  | [], _ =>
      simp [processFile, procLoop, initProcState, adj2Keys, adj3Keys]
  | [b], hall =>
      have hcb := hall b (by simp)
      simp [processFile, procLoop, processByte, hcb, initProcState, adj2Keys, adj3Keys]
  | b1 :: b2 :: rest, hall =>
      have h1 := hall b1 (by simp)
      have h2 := hall b2 (by simp)
      have hall' : ∀ x ∈ rest, countedByte asciiOnly x = true := fun x hx =>
        hall x (by simp [hx])
      have e : processFile asciiOnly true (b1 :: b2 :: rest)
          = procLoop asciiOnly true 2
              { b0 := b1, b1 := b2,
                charMap := bumpNat (bumpNat (fun _ => 0) b1) b2, charCount := 2,
                seqMap2 := bumpU32 (fun _ => 0) (pack2 b1 b2),
                seqMap3 := fun _ => 0 } rest := by
        simp [processFile, procLoop, processByte, h1, h2, initProcState]
      constructor
      · rw [e, procLoop_seqMap2 asciiOnly rest 2 _ k (by omega) hall' (by
          simp only [bumpU32]
          split
          · exact Nat.mod_lt _ (by decide)
          · decide)]
        simp only [adj2Keys, List.count_cons, bumpU32]
        by_cases hk : k = pack2 b1 b2
        · simp only [hk, if_pos rfl, beq_self_eq_true, if_true, Nat.mod_add_mod]
          congr 1
          omega
        · have hbeq : (pack2 b1 b2 == k) = false := by
            simpa [beq_iff_eq] using fun h => hk h.symm
          simp [hk, hbeq]
      · rw [e, procLoop_seqMap3 asciiOnly rest 2 _ k (by omega) hall'
          (by show (0 : Nat) < u32Mod; decide)]
        simp [adj3Keys]

/-- Witness for `processFile_ngram_adjacent` on the stream `"abc"`
(bytes `97 98 99`, all graphic) at the key of the pair `"ab"`. -/
theorem processFile_ngram_adjacent_witness :
    (∀ b ∈ [97, 98, 99], countedByte false b = true) ∧
    ((processFile false true [97, 98, 99]).seqMap2 (pack2 97 98)
        = (adj2Keys [97, 98, 99]).count (pack2 97 98) % u32Mod ∧
     (processFile false true [97, 98, 99]).seqMap3 (pack2 97 98)
        = (adj3Keys [97, 98, 99]).count (pack2 97 98) % u32Mod) :=
  ⟨by decide, processFile_ngram_adjacent false [97, 98, 99] (by decide) (pack2 97 98)⟩

/-- **C3 (counterexample)** On the stream `[0x01, 'a']` the claim as
stated fails: byte `0x01` fails the graphic/space filter, so at position
1 the worker packs the *initial zero* window byte with `'a'` and records
the key `pack2 0 97` — which is not a contiguous pair of the content —
while the actual adjacent pair key `pack2 1 97` is never recorded. -/
theorem processFile_ngram_claim_counterexample :
    (processFile false true [1, 97]).seqMap2 (pack2 1 97) = 0 ∧
    (processFile false true [1, 97]).seqMap2 (pack2 0 97) = 1 ∧
    adj2Keys [1, 97] = [pack2 1 97] ∧ pack2 0 97 ≠ pack2 1 97 := by
  refine ⟨?_, ?_, by decide, by decide⟩ <;>
    simp [processFile, procLoop, processByte, initProcState, countedByte,
      unicodeIsGraphic, unicodeIsSpace, bumpU32, pack2, u32Mod]

/-- **C4 (amended)** The worker's character table is computed byte-wise,
with no UTF-8 decoding: for every key `k`, the character map holds the
number of bytes of the (lower-cased) content that equal `k` and pass the
graphic-or-space and ASCII filters, and the character counter holds the
number of passing bytes.  A multi-byte UTF-8 character therefore
contributes one increment per constituent byte, each filed under that
byte's Latin-1 value — not one increment for its decoded code point
(the original claim is refuted by `processFile_utf8_counterexample`). -/
theorem processFile_charMap_bytewise (asciiOnly seqEnabled : Bool)
    (content : List Nat) (k : Nat) :
    (processFile asciiOnly seqEnabled content).charMap k
        = (content.filter (countedByte asciiOnly)).count k ∧
    (processFile asciiOnly seqEnabled content).charCount
        = (content.filter (countedByte asciiOnly)).length := by
  constructor
  · simpa [initProcState] using
      procLoop_charMap asciiOnly seqEnabled content 0 initProcState k
  · simpa [initProcState] using
      procLoop_charCount asciiOnly seqEnabled content 0 initProcState

/-- **C4 (counterexample)** On the two-byte stream `[0xC3, 0xA4]` — the
UTF-8 encoding of the already-lower-case character `'ä'` (code point
`0xE4` = 228) — the worker, in full-Unicode mode (`asciiOnly = false`),
records nothing at the decoded code point and instead one count per
constituent byte, at the Latin-1 values `0xC3` and `0xA4`. -/
theorem processFile_utf8_counterexample :
    (processFile false true [195, 164]).charMap 228 = 0 ∧
    (processFile false true [195, 164]).charMap 195 = 1 ∧
    (processFile false true [195, 164]).charMap 164 = 1 ∧
    (processFile false true [195, 164]).charCount = 2 := by
  refine ⟨?_, ?_, ?_, ?_⟩ <;>
    simp [processFile, procLoop, processByte, initProcState, countedByte,
      unicodeIsGraphic, unicodeIsSpace, bumpNat, bumpU32]

/-! ## C7 — end-of-run aggregate invariants

`DiscoverFiles` (`discovery.go`) visits every non-directory entry: on a
walk-callback error nothing is counted; otherwise "found" is
incremented, then the entry is either counted as "ignored" (special
file, ignore-matcher hit, open error, read error, invalid UTF-8) or its
content is published as a `FileJob`.  Every job is processed by exactly
one worker into one `CharCountResult`, and every result is merged by
`AddResult`.  The model folds the visits into collector state plus a job
list, then merges the per-job worker results. -/

/-- Classification of one `filepath.WalkDir` callback for a
non-directory entry, as branched on by `DiscoverFiles`. -/
inductive FileVisit where
  | walkErr : FileVisit
  | special : FileVisit
  | matched : FileVisit
  | openErr : FileVisit
  | readErr : FileVisit
  | notUTF8 : FileVisit
  | text (content : List Nat) : FileVisit

/-- One `DiscoverFiles` callback acting on the collector and the list of
published job contents. -/
def discoverStep (st : ResultCollector × List (List Nat)) (v : FileVisit) :
    ResultCollector × List (List Nat) :=
  match v with
  | .walkErr => st
  | .special => (incrementIgnored (incrementFound st.1), st.2)
  | .matched => (incrementIgnored (incrementFound st.1), st.2)
  | .openErr => (incrementIgnored (incrementFound st.1), st.2)
  | .readErr => (incrementIgnored (incrementFound st.1), st.2)
  | .notUTF8 => (incrementIgnored (incrementFound st.1), st.2)
  | .text c => (incrementFound st.1, st.2 ++ [c])

/-- The whole discovery walk, from a fresh collector. -/
def discoverFiles (visits : List FileVisit) : ResultCollector × List (List Nat) :=
  visits.foldl discoverStep (newResultCollector, [])

/-- A completed pipeline run: discovery, per-job worker scans, and the
merge of every partial result into the collector.  Returns the final
aggregate state together with the merged partial results. -/
def runPipeline (asciiOnly seqEnabled : Bool) (visits : List FileVisit) :
    ResultCollector × List CharCountResult :=
  let d := discoverFiles visits
  let results := d.2.map (processFileResult asciiOnly seqEnabled)
  (results.foldl addResult d.1, results)

/-- Discovery preserves `filesFound = filesIgnored + #jobs` and never
touches the merge totals. -/
theorem discoverStep_foldl_inv (visits : List FileVisit) :
    ∀ (col : ResultCollector) (jobs : List (List Nat)),
      col.filesFound = col.filesIgnored + jobs.length →
      (visits.foldl discoverStep (col, jobs)).1.filesFound
          = (visits.foldl discoverStep (col, jobs)).1.filesIgnored
            + (visits.foldl discoverStep (col, jobs)).2.length ∧
      (visits.foldl discoverStep (col, jobs)).1.totalFiles = col.totalFiles ∧
      (visits.foldl discoverStep (col, jobs)).1.totalChars = col.totalChars := by
  induction visits with
  | nil => intro col jobs h; simpa using h
  | cons v rest ih =>
      intro col jobs h
      cases v <;>
        simp only [List.foldl_cons, discoverStep] <;>
        first
        | exact ih col jobs h
        | exact ih _ jobs (by simp [incrementFound, incrementIgnored]; omega)
        | exact ih _ _ (by simp [incrementFound]; omega)

/-- Merging a list of results adds their `FileCount`s to `totalFiles`,
adds their `CharCount`s to `totalChars`, and leaves `filesFound` and
`filesIgnored` unchanged. -/
theorem foldl_addResult_counters (results : List CharCountResult) :
    ∀ col : ResultCollector,
      (results.foldl addResult col).totalFiles
          = col.totalFiles + (results.map CharCountResult.FileCount).sum ∧
      (results.foldl addResult col).totalChars
          = col.totalChars + (results.map CharCountResult.CharCount).sum ∧
      (results.foldl addResult col).filesFound = col.filesFound ∧
      (results.foldl addResult col).filesIgnored = col.filesIgnored := by
  induction results with
  | nil => intro col; simp
  | cons r rest ih =>
      intro col
      have h := ih (addResult col r)
      simp only [List.foldl_cons, List.map_cons, List.sum_cons, addResult] at h ⊢
      omega

/-- **C7** At the end of every completed pipeline run: the aggregate
satisfies `FilesFound ≥ FilesIgnored` (both are `Nat`, hence `≥ 0`),
`FilesFound − FilesIgnored = FilesProcessed` (= `totalFiles`), which
equals the sum of the merged partial results' `FileCount` fields; every
merged partial result has `FileCount = 1`; and `TotalChars` equals the
sum of the merged partial results' `CharCount` fields. -/
theorem pipeline_invariants (asciiOnly seqEnabled : Bool) (visits : List FileVisit) :
    (runPipeline asciiOnly seqEnabled visits).1.filesIgnored
        ≤ (runPipeline asciiOnly seqEnabled visits).1.filesFound ∧
    (runPipeline asciiOnly seqEnabled visits).1.filesFound
        - (runPipeline asciiOnly seqEnabled visits).1.filesIgnored
        = (runPipeline asciiOnly seqEnabled visits).1.totalFiles ∧
    (runPipeline asciiOnly seqEnabled visits).1.totalFiles
        = ((runPipeline asciiOnly seqEnabled visits).2.map
            CharCountResult.FileCount).sum ∧
    (∀ r ∈ (runPipeline asciiOnly seqEnabled visits).2, r.FileCount = 1) ∧
    (runPipeline asciiOnly seqEnabled visits).1.totalChars
        = ((runPipeline asciiOnly seqEnabled visits).2.map
            CharCountResult.CharCount).sum := by
  have hd := discoverStep_foldl_inv visits newResultCollector []
    (by simp [newResultCollector])
  have hm := foldl_addResult_counters
    ((discoverFiles visits).2.map (processFileResult asciiOnly seqEnabled))
    (discoverFiles visits).1
  have hone : ∀ r ∈ (discoverFiles visits).2.map
      (processFileResult asciiOnly seqEnabled), r.FileCount = 1 := by
    intro r hr
    obtain ⟨c, _, rfl⟩ := List.mem_map.mp hr
    rfl
  have hsum : (((discoverFiles visits).2.map
      (processFileResult asciiOnly seqEnabled)).map CharCountResult.FileCount).sum
      = (discoverFiles visits).2.length := by
    rw [List.map_map]
    have he : ((discoverFiles visits).2.map
        (CharCountResult.FileCount ∘ processFileResult asciiOnly seqEnabled))
        = (discoverFiles visits).2.map (fun _ => 1) :=
      List.map_congr_left fun c _ => rfl
    simp [he]
  have hz1 : newResultCollector.totalFiles = 0 := rfl
  have hz2 : newResultCollector.totalChars = 0 := rfl
  simp only [runPipeline, discoverFiles] at hm hone hsum ⊢
  simp only [discoverFiles] at hd
  rw [hz1, hz2] at hd
  refine ⟨?_, ?_, ?_, hone, ?_⟩ <;> omega

/-! ## C8 — what `GetResults` actually hands out

Go maps are reference values: mutation through one reference is visible
through every alias, so "the returned maps are unchanged by later
`AddResult` calls" is a statement about map *objects*.  The objects are
modelled in an explicit heap — a list of extensional maps indexed by
allocation order — with the collector holding references (indices) to
its four maps: the three count maps *and* the `timing.Values` map of its
`ResultTiming` field.  `GetResults`' `make` + `maps.Copy` allocates
fresh indices holding the same extensional content for the three count
maps, but its final return value `rc.timing` is a struct copy whose
`Values` field still references the collector's live timing map — no
copy is made.  `AddResult` mutates the collector's own count maps in
place and then executes
`rc.timing.Values["AddResult"] = rc.timing.Values["AddResult"] + time.Since(startAdding)`:
the elapsed duration read from the clock is an input of the model
(`dt`, in nanoseconds), and timing-map string keys are encoded as
naturals.  The scalar fields are Go `int`s returned by value, so their
copies are immediate; they are carried as plain values. -/

/-- A heap of map objects; a reference is an index into the list. -/
abbrev MapHeap : Type := List (Nat → Nat)

/-- Dereference `r` (the references used are always in bounds; an absent
reference reads as the empty map). -/
def heapRead (h : MapHeap) (r : Nat) : Nat → Nat :=
  h.getD r (fun _ => 0)

/-- In-place overwrite of the map object behind reference `r`. -/
def heapWrite (h : MapHeap) (r : Nat) (m : Nat → Nat) : MapHeap :=
  h.set r m

/-- Encoding of the timing-map key `"AddResult"`. -/
def timingKeyAddResult : Nat := 0

/-- The collector with its three count maps and its `timing.Values` map
held by reference, and its scalar counters held by value. -/
structure RCRef where
  charRef : Nat
  seq2Ref : Nat
  seq3Ref : Nat
  timingRef : Nat
  totalFiles : Nat
  totalChars : Nat
  filesFound : Nat
  filesIgnored : Nat

/-- The map references handed out by `GetResults`: three freshly
allocated copies, plus the `Values` reference inside the returned
`ResultTiming` — which is the collector's own timing map. -/
structure SnapshotRefs where
  charCopy : Nat
  seq2Copy : Nat
  seq3Copy : Nat
  timingShared : Nat

/-- `ResultCollector.GetResults`: allocate three fresh map objects,
`maps.Copy` the collector's count-map contents into them, and return
references to the copies, the scalar values, and `rc.timing` — whose
`Values` map is returned by reference, un-copied. -/
def getResultsH (h : MapHeap) (rc : RCRef) :
    MapHeap × SnapshotRefs × (Nat × Nat × Nat × Nat) :=
  (h ++ [heapRead h rc.charRef, heapRead h rc.seq2Ref, heapRead h rc.seq3Ref],
   { charCopy := h.length, seq2Copy := h.length + 1, seq3Copy := h.length + 2,
     timingShared := rc.timingRef },
   (rc.totalFiles, rc.totalChars, rc.filesFound, rc.filesIgnored))

/-- `AddResult` under the heap model: mutate the three referenced count
maps in place, bump the scalar totals, and add the elapsed duration
`dt` into the shared timing map at key `"AddResult"`. -/
def addResultH (h : MapHeap) (rc : RCRef) (r : CharCountResult) (dt : Nat) :
    MapHeap × RCRef :=
  (heapWrite (heapWrite (heapWrite (heapWrite h
      rc.charRef (fun k => heapRead h rc.charRef k + r.CharMap k))
      rc.seq2Ref (fun k => (heapRead h rc.seq2Ref k + r.SequenceMap2 k) % u32Mod))
      rc.seq3Ref (fun k => (heapRead h rc.seq3Ref k + r.SequenceMap3 k) % u32Mod))
      rc.timingRef (fun k => if k = timingKeyAddResult
                    then heapRead h rc.timingRef k + dt
                    else heapRead h rc.timingRef k),
   { rc with totalFiles := rc.totalFiles + r.FileCount,
             totalChars := rc.totalChars + r.CharCount })

/-- The collector mutations that may race with a taken snapshot (an
`AddResult` call carries the duration its timing probe observes). -/
inductive CollectorOp where
  | add (r : CharCountResult) (dt : Nat) : CollectorOp
  | incFound : CollectorOp
  | incIgnored : CollectorOp

/-- One collector call under the heap model. -/
def opStep (st : MapHeap × RCRef) (op : CollectorOp) : MapHeap × RCRef :=
  match op with
  | .add r dt => addResultH st.1 st.2 r dt
  | .incFound => (st.1, { st.2 with filesFound := st.2.filesFound + 1 })
  | .incIgnored => (st.1, { st.2 with filesIgnored := st.2.filesIgnored + 1 })

/-- A sequence of collector calls. -/
def runOps (st : MapHeap × RCRef) (ops : List CollectorOp) : MapHeap × RCRef :=
  ops.foldl opStep st

/-- Collector calls never reseat the collector's map references. -/
theorem runOps_refs (ops : List CollectorOp) :
    ∀ st : MapHeap × RCRef,
      (runOps st ops).2.charRef = st.2.charRef ∧
      (runOps st ops).2.seq2Ref = st.2.seq2Ref ∧
      (runOps st ops).2.seq3Ref = st.2.seq3Ref ∧
      (runOps st ops).2.timingRef = st.2.timingRef := by
  induction ops with
  | nil => intro st; exact ⟨rfl, rfl, rfl, rfl⟩
  | cons op rest ih =>
      intro st
      have h := ih (opStep st op)
      cases op <;> simpa [runOps, opStep, addResultH] using h

/-- Frame property: a map object that none of the collector's references
designate is untouched by any sequence of collector calls. -/
theorem runOps_frame (ops : List CollectorOp) :
    ∀ (st : MapHeap × RCRef) (j : Nat),
      j ≠ st.2.charRef → j ≠ st.2.seq2Ref → j ≠ st.2.seq3Ref →
      j ≠ st.2.timingRef →
      heapRead (runOps st ops).1 j = heapRead st.1 j := by
  induction ops with
  | nil => intro st j _ _ _ _; rfl
  | cons op rest ih =>
      intro st j h1 h2 h3 h4
      have hstep : heapRead (opStep st op).1 j = heapRead st.1 j := by
        cases op with
        | add r dt =>
            simp only [opStep, addResultH, heapRead, heapWrite,
              List.getD_eq_getElem?_getD]
            rw [List.getElem?_set_ne (Ne.symm h4), List.getElem?_set_ne (Ne.symm h3),
              List.getElem?_set_ne (Ne.symm h2), List.getElem?_set_ne (Ne.symm h1)]
        | incFound => rfl
        | incIgnored => rfl
      have hrefs : (opStep st op).2.charRef = st.2.charRef ∧
          (opStep st op).2.seq2Ref = st.2.seq2Ref ∧
          (opStep st op).2.seq3Ref = st.2.seq3Ref ∧
          (opStep st op).2.timingRef = st.2.timingRef := by
        cases op <;> simp [opStep, addResultH]
      have := ih (opStep st op) j (hrefs.1 ▸ h1) (hrefs.2.1 ▸ h2)
        (hrefs.2.2.1 ▸ h3) (hrefs.2.2.2 ▸ h4)
      simpa [runOps, hstep] using this

/-- **C8 (amended)** The three count maps and the scalars returned by
`GetResults` are independent deep copies of the collector's state at the
time of the call: the three returned references are freshly allocated,
hold exactly the collector's map contents at snapshot time, and for
*any* sequence of `AddResult`, `IncrementFound`, `IncrementIgnored`
calls performed after the snapshot returns they are left completely
unchanged (the returned scalars are copies by Go value semantics).  The
`ResultTiming` returned alongside them, however, is *not* an independent
copy: its `Values` map is the collector's own timing map, so later
`AddResult` calls mutate it through the returned value — the original
claim, which asserts this of *every* returned map, is refuted by
`getResults_timing_counterexample`. -/
theorem getResults_deep_copy (h : MapHeap) (rc : RCRef)
    (hwf : rc.charRef < h.length ∧ rc.seq2Ref < h.length ∧
           rc.seq3Ref < h.length ∧ rc.timingRef < h.length)
    (ops : List CollectorOp) :
    heapRead (getResultsH h rc).1 (getResultsH h rc).2.1.charCopy
        = heapRead h rc.charRef ∧
    heapRead (getResultsH h rc).1 (getResultsH h rc).2.1.seq2Copy
        = heapRead h rc.seq2Ref ∧
    heapRead (getResultsH h rc).1 (getResultsH h rc).2.1.seq3Copy
        = heapRead h rc.seq3Ref ∧
    heapRead (runOps ((getResultsH h rc).1, rc) ops).1 (getResultsH h rc).2.1.charCopy
        = heapRead (getResultsH h rc).1 (getResultsH h rc).2.1.charCopy ∧
    heapRead (runOps ((getResultsH h rc).1, rc) ops).1 (getResultsH h rc).2.1.seq2Copy
        = heapRead (getResultsH h rc).1 (getResultsH h rc).2.1.seq2Copy ∧
    heapRead (runOps ((getResultsH h rc).1, rc) ops).1 (getResultsH h rc).2.1.seq3Copy
        = heapRead (getResultsH h rc).1 (getResultsH h rc).2.1.seq3Copy ∧
    (getResultsH h rc).2.1.timingShared = rc.timingRef := by
  obtain ⟨hw1, hw2, hw3, hw4⟩ := hwf
  have hcontent : ∀ i : Nat, i < 3 →
      heapRead (getResultsH h rc).1 (h.length + i)
        = [heapRead h rc.charRef, heapRead h rc.seq2Ref, heapRead h rc.seq3Ref].getD i
            (fun _ => 0) := by
    intro i hi
    simp only [getResultsH, heapRead, List.getD_eq_getElem?_getD]
    rw [List.getElem?_append_right (by omega)]
    have hidx : h.length + i - h.length = i := by omega
    rw [hidx]
  have h0 := hcontent 0 (by omega)
  have h1 := hcontent 1 (by omega)
  have h2 := hcontent 2 (by omega)
  simp only [List.getD_eq_getElem?_getD] at h0 h1 h2
  refine ⟨?_, ?_, ?_, ?_, ?_, ?_, rfl⟩
  · simpa [getResultsH] using h0
  · simpa [getResultsH] using h1
  · simpa [getResultsH] using h2
  · exact runOps_frame ops _ _ (by simp [getResultsH]; omega)
      (by simp [getResultsH]; omega) (by simp [getResultsH]; omega)
      (by simp [getResultsH]; omega)
  · exact runOps_frame ops _ _ (by simp [getResultsH]; omega)
      (by simp [getResultsH]; omega) (by simp [getResultsH]; omega)
      (by simp [getResultsH]; omega)
  · exact runOps_frame ops _ _ (by simp [getResultsH]; omega)
      (by simp [getResultsH]; omega) (by simp [getResultsH]; omega)
      (by simp [getResultsH]; omega)

/-- The heap of a fresh collector: three empty count maps and the empty
timing map allocated by `NewResultCollector`. -/
def sampleHeap : MapHeap :=
  [fun _ => 0, fun _ => 0, fun _ => 0, fun _ => 0]

/-- The collector of `NewResultCollector` under the heap model: count
maps at references 0, 1, 2 and the timing map at reference 3. -/
def sampleRCRef : RCRef :=
  { charRef := 0, seq2Ref := 1, seq3Ref := 2, timingRef := 3,
    totalFiles := 0, totalChars := 0, filesFound := 0, filesIgnored := 0 }

/-- An empty per-file result merged by the counterexample's `AddResult`. -/
def timingProbeResult : CharCountResult :=
  { CharMap := fun _ => 0, SequenceMap2 := fun _ => 0, SequenceMap3 := fun _ => 0,
    FileCount := 1, CharCount := 0 }

/-- **C8 (counterexample)** Not every map returned by `GetResults` is an
independent deep copy left unchanged by later calls: on the fresh
collector, the `ResultTiming` returned by the snapshot shares its
`Values` map with the collector (same reference), and a single
subsequent `AddResult` whose timing probe observes 5 ns changes the
`"AddResult"` entry of that returned map from 0 to 5. -/
theorem getResults_timing_counterexample :
    (getResultsH sampleHeap sampleRCRef).2.1.timingShared = sampleRCRef.timingRef ∧
    heapRead (getResultsH sampleHeap sampleRCRef).1
        (getResultsH sampleHeap sampleRCRef).2.1.timingShared timingKeyAddResult = 0 ∧
    heapRead (runOps ((getResultsH sampleHeap sampleRCRef).1, sampleRCRef)
          [CollectorOp.add timingProbeResult 5]).1
        (getResultsH sampleHeap sampleRCRef).2.1.timingShared timingKeyAddResult = 5 ∧
    heapRead (runOps ((getResultsH sampleHeap sampleRCRef).1, sampleRCRef)
          [CollectorOp.add timingProbeResult 5]).1
        (getResultsH sampleHeap sampleRCRef).2.1.timingShared timingKeyAddResult
      ≠ heapRead (getResultsH sampleHeap sampleRCRef).1
          (getResultsH sampleHeap sampleRCRef).2.1.timingShared timingKeyAddResult := by
  refine ⟨rfl, ?_, ?_, ?_⟩ <;> decide

/-- Witness for `getResults_deep_copy`: the fresh collector, snapshotted
and then mutated by an `AddResult` call. -/
theorem getResults_deep_copy_witness :
    (sampleRCRef.charRef < sampleHeap.length ∧
     sampleRCRef.seq2Ref < sampleHeap.length ∧
     sampleRCRef.seq3Ref < sampleHeap.length ∧
     sampleRCRef.timingRef < sampleHeap.length) ∧
    (heapRead (runOps ((getResultsH sampleHeap sampleRCRef).1, sampleRCRef)
          [CollectorOp.add timingProbeResult 5]).1
        (getResultsH sampleHeap sampleRCRef).2.1.charCopy
      = heapRead (getResultsH sampleHeap sampleRCRef).1
          (getResultsH sampleHeap sampleRCRef).2.1.charCopy) :=
  ⟨⟨by decide, by decide, by decide, by decide⟩,
   (getResults_deep_copy sampleHeap sampleRCRef
      ⟨by decide, by decide, by decide, by decide⟩
      [CollectorOp.add timingProbeResult 5]).2.2.2.1⟩

/-! ## C5 / C9 — the post-processing of `AnalyzeSymbols` (`counter.go`)

The global 2-gram and 3-gram maps arrive as finite entry lists (a Go
map's entry set, iterated in arbitrary order, with pairwise distinct
keys).  `AnalyzeSymbols` unpacks every key into its 2- or 3-byte string
and writes it into one combined `map[string]int` by plain assignment,
then filters by the occurrence threshold, sorts, and truncates to the
top-N cap.  Sequences (Go strings of raw bytes) are byte lists. -/

/-- `string([]byte{byte(k2 >> 8), byte(k2)})` — the byte sequence
reconstructed from a 16-bit 2-gram key. -/
def seqOfKey2 (k : Nat) : List Nat := [unpack2Hi k, unpack2Lo k]

/-- `string([]byte{byte(k3 >> 16), byte(k3 >> 8), byte(k3)})` — the byte
sequence reconstructed from a 24-bit 3-gram key. -/
def seqOfKey3 (k : Nat) : List Nat := [unpack3Hi k, unpack3Mid k, unpack3Lo k]

/-- Go map assignment `m[key] = v` on an association list: overwrite the
entry if the key is present, append it otherwise. -/
def setAssoc : List (List Nat × Nat) → List Nat → Nat → List (List Nat × Nat)
  | [], key, v => [(key, v)]
  | e :: rest, key, v =>
      if e.1 = key then (key, v) :: rest else e :: setAssoc rest key v

/-- The combine loop of `AnalyzeSymbols`: write every unpacked 2-gram
entry, then every unpacked 3-gram entry, into one string-keyed map. -/
def combineSeqMaps (m2 m3 : List (Nat × Nat)) : List (List Nat × Nat) :=
  m3.foldl (fun acc e => setAssoc acc (seqOfKey3 e.1) e.2)
    (m2.foldl (fun acc e => setAssoc acc (seqOfKey2 e.1) e.2) [])

/-- Assigning a key that is not yet in the map appends a new entry. -/
theorem setAssoc_not_mem (l : List (List Nat × Nat)) (key : List Nat) (v : Nat)
    (h : key ∉ l.map Prod.fst) : setAssoc l key v = l ++ [(key, v)] := by
  induction l with
  | nil => rfl
  | cons e rest ih =>
      simp only [List.map_cons, List.mem_cons] at h
      push_neg at h
      simp only [setAssoc]
      rw [if_neg (fun he => h.1 he.symm), ih h.2]
      simp

/-- Folding assignments whose keys are pairwise distinct and all fresh
for the accumulator appends all the entries in order. -/
theorem foldl_setAssoc_fresh (es : List (List Nat × Nat)) :
    ∀ acc : List (List Nat × Nat),
      (∀ k ∈ es.map Prod.fst, k ∉ acc.map Prod.fst) →
      (es.map Prod.fst).Nodup →
      es.foldl (fun a e => setAssoc a e.1 e.2) acc = acc ++ es := by
  induction es with
  | nil => intro acc _ _; simp
  | cons e rest ih =>
      intro acc hfresh hnodup
      simp only [List.map_cons, List.nodup_cons] at hnodup
      have he : e.1 ∉ acc.map Prod.fst := hfresh e.1 (by simp)
      simp only [List.foldl_cons, setAssoc_not_mem acc e.1 e.2 he]
      rw [ih (acc ++ [(e.1, e.2)]) ?_ hnodup.2]
      · simp
      · intro k hk
        simp only [List.map_append, List.mem_append]
        push_neg
        refine ⟨hfresh k (by simp [hk]), ?_⟩
        simp only [List.map_cons, List.map_nil, List.mem_singleton]
        intro hke
        exact hnodup.1 (hke ▸ hk)

/-- Unpacking is injective on 16-bit keys. -/
theorem seqOfKey2_inj (k k' : Nat) (hk : k < 65536) (hk' : k' < 65536)
    (h : seqOfKey2 k = seqOfKey2 k') : k = k' := by
  simp only [seqOfKey2, unpack2Hi, unpack2Lo, List.cons.injEq, and_true] at h
  omega

/-- Unpacking is injective on 24-bit keys. -/
theorem seqOfKey3_inj (k k' : Nat) (hk : k < 16777216) (hk' : k' < 16777216)
    (h : seqOfKey3 k = seqOfKey3 k') : k = k' := by
  simp only [seqOfKey3, unpack3Hi, unpack3Mid, unpack3Lo, List.cons.injEq,
    and_true] at h
  omega

/-- **C9** Every 16-bit 2-gram key unpacks to a byte string of length
exactly 2 and every 24-bit 3-gram key to one of length exactly 3, so the
two unpacked key sets are disjoint; consequently the combined sequence
map of `AnalyzeSymbols` has exactly `len(SequenceMap2) +
len(SequenceMap3)` entries, its keys are pairwise distinct, and the
plain assignment that builds it never overwrites an existing entry or
loses a count (every source entry survives with its value). -/
theorem combineSeqMaps_no_overwrite (m2 m3 : List (Nat × Nat))
    (h2nodup : (m2.map Prod.fst).Nodup) (h2lt : ∀ e ∈ m2, e.1 < 65536)
    (h3nodup : (m3.map Prod.fst).Nodup) (h3lt : ∀ e ∈ m3, e.1 < 16777216) :
    (∀ e ∈ m2, (seqOfKey2 e.1).length = 2) ∧
    (∀ e ∈ m3, (seqOfKey3 e.1).length = 3) ∧
    combineSeqMaps m2 m3
      = m2.map (fun e => (seqOfKey2 e.1, e.2))
        ++ m3.map (fun e => (seqOfKey3 e.1, e.2)) ∧
    (combineSeqMaps m2 m3).length = m2.length + m3.length ∧
    ((combineSeqMaps m2 m3).map Prod.fst).Nodup ∧
    (∀ e ∈ m2, (seqOfKey2 e.1, e.2) ∈ combineSeqMaps m2 m3) ∧
    (∀ e ∈ m3, (seqOfKey3 e.1, e.2) ∈ combineSeqMaps m2 m3) := by
  have hkeys2 : (m2.map (fun e => (seqOfKey2 e.1, e.2))).map Prod.fst
      = m2.map (fun e => seqOfKey2 e.1) := by simp [List.map_map]
  have hkeys3 : (m3.map (fun e => (seqOfKey3 e.1, e.2))).map Prod.fst
      = m3.map (fun e => seqOfKey3 e.1) := by simp [List.map_map]
  have h2keys : (m2.map (fun e => seqOfKey2 e.1)).Nodup := by
    have : m2.map (fun e => seqOfKey2 e.1) = (m2.map Prod.fst).map seqOfKey2 := by
      simp [List.map_map]
    rw [this]
    refine List.Nodup.map_on ?_ h2nodup
    intro x hx y hy hxy
    obtain ⟨ex, hex, rfl⟩ := List.mem_map.mp hx
    obtain ⟨ey, hey, rfl⟩ := List.mem_map.mp hy
    exact seqOfKey2_inj _ _ (h2lt ex hex) (h2lt ey hey) hxy
  have h3keys : (m3.map (fun e => seqOfKey3 e.1)).Nodup := by
    have : m3.map (fun e => seqOfKey3 e.1) = (m3.map Prod.fst).map seqOfKey3 := by
      simp [List.map_map]
    rw [this]
    refine List.Nodup.map_on ?_ h3nodup
    intro x hx y hy hxy
    obtain ⟨ex, hex, rfl⟩ := List.mem_map.mp hx
    obtain ⟨ey, hey, rfl⟩ := List.mem_map.mp hy
    exact seqOfKey3_inj _ _ (h3lt ex hex) (h3lt ey hey) hxy
  have hdisj : ∀ k ∈ m3.map (fun e => seqOfKey3 e.1),
      k ∉ m2.map (fun e => seqOfKey2 e.1) := by
    intro k hk3 hk2
    obtain ⟨e3, _, rfl⟩ := List.mem_map.mp hk3
    obtain ⟨e2, _, he⟩ := List.mem_map.mp hk2
    have : (2 : Nat) = 3 := by
      calc (2 : Nat) = (seqOfKey2 e2.1).length := rfl
        _ = (seqOfKey3 e3.1).length := by rw [he]
        _ = 3 := rfl
    omega
  have hstep1 : m2.foldl (fun acc e => setAssoc acc (seqOfKey2 e.1) e.2) []
      = m2.map (fun e => (seqOfKey2 e.1, e.2)) := by
    have := foldl_setAssoc_fresh (m2.map (fun e => (seqOfKey2 e.1, e.2))) []
      (by simp) (by rw [hkeys2]; exact h2keys)
    rw [List.foldl_map] at this
    simpa using this
  have hstep2 : combineSeqMaps m2 m3
      = m2.map (fun e => (seqOfKey2 e.1, e.2))
        ++ m3.map (fun e => (seqOfKey3 e.1, e.2)) := by
    unfold combineSeqMaps
    rw [hstep1]
    have := foldl_setAssoc_fresh (m3.map (fun e => (seqOfKey3 e.1, e.2)))
      (m2.map (fun e => (seqOfKey2 e.1, e.2)))
      (by rw [hkeys3, hkeys2]; exact hdisj)
      (by rw [hkeys3]; exact h3keys)
    rw [List.foldl_map] at this
    simpa using this
  refine ⟨fun e _ => rfl, fun e _ => rfl, hstep2, ?_, ?_, ?_, ?_⟩
  · rw [hstep2]; simp
  · rw [hstep2]
    simp only [List.map_append]
    rw [hkeys2, hkeys3]
    exact List.Nodup.append h2keys h3keys (fun k hk2 hk3 => hdisj k hk3 hk2)
  · intro e he
    rw [hstep2]
    exact List.mem_append_left _ (List.mem_map.mpr ⟨e, he, rfl⟩)
  · intro e he
    rw [hstep2]
    exact List.mem_append_right _ (List.mem_map.mpr ⟨e, he, rfl⟩)

/-- Witness for `combineSeqMaps_no_overwrite`: the 2-gram map
`{"ab": 4}` and the 3-gram map `{"abc": 2}`. -/
theorem combineSeqMaps_no_overwrite_witness :
    (([(24930, 4)] : List (Nat × Nat)).map Prod.fst).Nodup ∧
    (([(6382179, 2)] : List (Nat × Nat)).map Prod.fst).Nodup ∧
    (combineSeqMaps [(24930, 4)] [(6382179, 2)]).length = 1 + 1 := by
  refine ⟨by decide, by decide, ?_⟩
  exact (combineSeqMaps_no_overwrite [(24930, 4)] [(6382179, 2)]
    (by decide) (by decide) (by decide) (by decide)).2.2.2.1

/-- Go string comparison `<` on raw byte sequences (lexicographic byte
order), used by `SequenceCounts.Less` for tie-breaking. -/
def lexLtBytes : List Nat → List Nat → Bool
  | [], [] => false
  | [], _ :: _ => true
  | _ :: _, [] => false
  | a :: as, b :: bs =>
      if a < b then true else if b < a then false else lexLtBytes as bs

/-- `SequenceCounts.Less` (`counter.go`): count descending, ties broken
by ascending sequence value. -/
def sequenceLess (a b : List Nat × Nat) : Bool :=
  if a.2 ≠ b.2 then decide (b.2 < a.2) else lexLtBytes a.1 b.1

/-- The threshold filter of `AnalyzeSymbols`: an entry of the combined
sequence map is appended to the output iff `count >= Threshold`.
(The float percentage annotation is not modelled.) -/
def thresholdFilter (seqMap : List (List Nat × Nat)) (threshold : Nat) :
    List (List Nat × Nat) :=
  seqMap.filter (fun e => decide (threshold ≤ e.2))

/-- `sort.Sort(sequenceCounts)` modelled as sorting by the `Less`
relation (insertion sort; only the "sorted permutation" contract of
`sort.Sort` is relied on). -/
def sortSequenceCounts (l : List (List Nat × Nat)) : List (List Nat × Nat) :=
  List.insertionSort (fun a b => sequenceLess a b = true) l

/-- The sequence post-processing of `AnalyzeSymbols`: threshold filter,
sort, then the top-N cap
(`if topNSeq > 0 && len(sequenceCounts) > topNSeq { truncate }`). -/
def analyzeSequenceCounts (seqMap : List (List Nat × Nat))
    (threshold topN : Nat) : List (List Nat × Nat) :=
  let sorted := sortSequenceCounts (thresholdFilter seqMap threshold)
  if 0 < topN ∧ topN < sorted.length then sorted.take topN else sorted

/-- **C5** For every global sequence map (entry list with pairwise
distinct keys) and configured threshold: a sequence appears in the final
sequence-count list iff its global count is `≥` the threshold, and each
qualifying sequence appears exactly once (the key list stays duplicate
free); a configured top-N cap only truncates this sorted filtered list
afterwards. -/
theorem threshold_filter_iff (seqMap : List (List Nat × Nat)) (threshold topN : Nat)
    (hnodup : (seqMap.map Prod.fst).Nodup) :
    (∀ s c, (s, c) ∈ sortSequenceCounts (thresholdFilter seqMap threshold)
        ↔ ((s, c) ∈ seqMap ∧ threshold ≤ c)) ∧
    ((sortSequenceCounts (thresholdFilter seqMap threshold)).map Prod.fst).Nodup ∧
    analyzeSequenceCounts seqMap threshold topN
      = if 0 < topN ∧
            topN < (sortSequenceCounts (thresholdFilter seqMap threshold)).length
        then (sortSequenceCounts (thresholdFilter seqMap threshold)).take topN
        else sortSequenceCounts (thresholdFilter seqMap threshold) := by
  have hperm : (sortSequenceCounts (thresholdFilter seqMap threshold)).Perm
      (thresholdFilter seqMap threshold) := List.perm_insertionSort _ _
  refine ⟨?_, ?_, rfl⟩
  · intro s c
    rw [hperm.mem_iff]
    simp [thresholdFilter, List.mem_filter]
  · have hsub : (thresholdFilter seqMap threshold).Sublist seqMap :=
      List.filter_sublist _
    have h1 : ((thresholdFilter seqMap threshold).map Prod.fst).Nodup :=
      (hsub.map Prod.fst).nodup hnodup
    exact ((hperm.map Prod.fst).nodup_iff).mpr h1

/-- Witness for `threshold_filter_iff`: the map `{"ab": 5, "cd": 1}`
with threshold 2 — `"ab"` qualifies. -/
theorem threshold_filter_iff_witness :
    (([(([97, 98] : List Nat), 5), (([99, 100] : List Nat), 1)] :
        List (List Nat × Nat)).map Prod.fst).Nodup ∧
    ((([97, 98], 5) ∈ sortSequenceCounts
        (thresholdFilter [(([97, 98] : List Nat), 5), (([99, 100] : List Nat), 1)] 2))
      ↔ ((([97, 98] : List Nat), 5)
            ∈ [(([97, 98] : List Nat), 5), (([99, 100] : List Nat), 1)] ∧ 2 ≤ 5)) :=
  ⟨by decide,
   (threshold_filter_iff [(([97, 98] : List Nat), 5), (([99, 100] : List Nat), 1)]
      2 0 (by decide)).1 [97, 98] 5⟩

/-! ## C10 — the static extension denylist (`extension.go`) -/

/-- The backwards scan of `filepath.Ext`: walking the reversed path,
stop empty at a separator, and at the first dot met return everything
from that dot to the end of the path (`acc` holds the characters already
passed, in original order). -/
def extScan (acc : List Char) : List Char → List Char
  | [] => []
  | c :: rest =>
      if c = '/' then []
      else if c = '.' then c :: acc
      else extScan (c :: acc) rest

/-- `filepath.Ext(path)`: the suffix beginning at the final dot in the
final path element, empty if there is none. -/
def filepathExt (p : String) : String := String.mk (extScan [] p.data.reverse)

/-- The denylist installed by `addDefaultIgnoredExtensions`. -/
def defaultIgnoredExtensions : List String := [".svg"]

/-- `ExtensionIgnorer.ShouldIgnore` with the default denylist (the
cheapest policy, checked first by `Matcher.ShouldIgnore`): ignore iff
the extension is non-empty and in the set. -/
def extensionShouldIgnore (path : String) : Bool :=
  (filepathExt path != "") && defaultIgnoredExtensions.contains (filepathExt path)

/-- **C10** The static extension denylist contains exactly the single
entry `".svg"`, and the extension policy of `Matcher.ShouldIgnore`
excludes a path iff its final extension is exactly `".svg"`, compared
case-sensitively — in particular `"a.SVG"` and `"a.png"` are not
excluded by this policy. -/
theorem extension_denylist_iff (path : String) :
    defaultIgnoredExtensions = [".svg"] ∧
    (extensionShouldIgnore path = true ↔ filepathExt path = ".svg") ∧
    extensionShouldIgnore "a.SVG" = false ∧
    extensionShouldIgnore "a.png" = false := by
  refine ⟨rfl, ?_, by decide, by decide⟩
  constructor
  · intro h
    simp only [extensionShouldIgnore, defaultIgnoredExtensions, List.contains_cons,
      List.contains_nil, Bool.or_false, Bool.and_eq_true, beq_iff_eq] at h
    exact h.2
  · intro h
    simp only [extensionShouldIgnore, h, defaultIgnoredExtensions]
    decide

/-! ## C6 — the hierarchical gitignore cascade (`GitignoreMatcher`)

`ShouldIgnore` walks from the path's parent directory up to the scan
root, testing the path (relativised to each ancestor) against that
ancestor's rule patterns; the first match excludes.  The path helpers
(`filepath.Dir`, `filepath.Rel`, `filepath.Base`, `strings.Split`) are
modelled for clean slash-separated relative paths — the only inputs the
walker ever produces (`filepath.Rel` cannot fail on them, so its error
branch is unreachable).  `filepath.Match` is modelled for patterns built
from literals, `*` and `?` (no character classes or escapes occur in the
rules under scrutiny): `*` and `?` never match a separator. -/

/-- `strings.Split(s, "/")` on character lists (`acc` holds the current
segment reversed). -/
def splitSegs (acc : List Char) : List Char → List (List Char)
  | [] => [acc.reverse]
  | c :: rest =>
      if c = '/' then acc.reverse :: splitSegs [] rest
      else splitSegs (c :: acc) rest

/-- `strings.Join(segs, "/")`. -/
def joinSegs : List (List Char) → List Char
  | [] => []
  | [s] => s
  | s :: rest => s ++ '/' :: joinSegs rest

/-- `filepath.Dir` on a clean relative path: drop the final segment;
a single-segment path has directory `"."`. -/
def pathDir (p : String) : String :=
  let segs := splitSegs [] p.data
  if segs.length ≤ 1 then "." else String.mk (joinSegs segs.dropLast)

/-- The segment computation of `filepath.Rel`: strip the common prefix,
then one `".."` per remaining base segment followed by the remaining
target segments. -/
def relSegs : List (List Char) → List (List Char) → List (List Char)
  | b :: bs, t :: ts =>
      if b = t then relSegs bs ts
      else List.replicate (bs.length + 1) ['.', '.'] ++ (t :: ts)
  | [], ts => ts
  | bs, [] => List.replicate bs.length ['.', '.']

/-- `filepath.Rel(base, target)` on clean relative paths (the result is
`"."` when they coincide). -/
def pathRel (base target : String) : String :=
  match relSegs (splitSegs [] base.data) (splitSegs [] target.data) with
  | [] => "."
  | r => String.mk (joinSegs r)

/-- `strings.HasPrefix` on character lists. -/
def strHasPfx (s pfx : List Char) : Bool := pfx.isPrefixOf s

/-- `strings.HasSuffix` on character lists. -/
def strHasSfx (s sfx : List Char) : Bool := sfx.isSuffixOf s

/-- The final path element (`filepath.Base` on a clean relative path). -/
def lastSeg : List (List Char) → List Char
  | [] => ['.']
  | [s] => s
  | _ :: rest => lastSeg rest

/-- The recursion of `filepath.Match`, on explicit fuel so that it stays
structural (every step shortens the pattern or the name, so
`p.length + n.length + 1` fuel always suffices). -/
def globWork (fuel : Nat) (p n : List Char) : Bool :=
  match fuel with
  | 0 => false
  | fuel + 1 =>
      match p, n with
      | [], [] => true
      | [], _ :: _ => false
      | '*' :: ps, ns =>
          globWork fuel ps ns ||
            (match ns with
             | [] => false
             | c :: ns' => (c != '/') && globWork fuel ('*' :: ps) ns')
      | '?' :: _, [] => false
      | '?' :: ps, c :: ns' => (c != '/') && globWork fuel ps ns'
      | _ :: _, [] => false
      | c :: ps, d :: ns' => (c == d) && globWork fuel ps ns'

/-- `filepath.Match` for patterns made of literals, `*` and `?`:
a full-name match where `*` matches any (possibly empty) run of
non-separator characters and `?` one non-separator character. -/
def globMatch (p n : List Char) : Bool :=
  globWork (p.length + n.length + 1) p n

/-- `GitignoreMatcher.matchesPattern` (`gitignore.go` in the ignorer
package): a trailing-slash pattern matches the named directory itself,
any path under it, or any equal path segment (the Go index side
condition `i == len(parts)-1 || len(parts) > i+1` is a tautology);
control then falls through to the anchored/unanchored glob tests — a
leading-slash pattern is matched against the whole relative path and
every prefix of it, and an unanchored pattern against the whole path,
its base name, every single segment, and every suffix of segments. -/
def matchesPattern (relPath pat : String) : Bool :=
  let rp := relPath.data
  let patc := pat.data
  let parts := splitSegs [] rp
  let dirHit :=
    if strHasSfx patc ['/'] then
      let dirPat := patc.dropLast
      decide (rp = dirPat) || strHasPfx rp (dirPat ++ ['/'])
        || parts.any (fun part => decide (part = dirPat))
    else false
  dirHit ||
    (match patc with
     | '/' :: after =>
         globMatch after rp ||
           (List.range parts.length).any (fun i =>
             globMatch after (joinSegs (parts.take (i + 1))))
     | _ =>
         globMatch patc rp || globMatch patc (lastSeg parts)
           || parts.any (fun part => globMatch patc part)
           || (List.range parts.length).any (fun i =>
               globMatch patc (joinSegs (parts.drop i))))

/-- The rule state of a `GitignoreMatcher`: the scan root and the map
from directory to the patterns loaded from that directory's rule file. -/
structure GitignoreMatcher where
  basePath : String
  matchers : List (String × List String)

/-- Go map lookup `m.matchers[currentDir]`. -/
def lookupMatchers (m : List (String × List String)) (dir : String) :
    Option (List String) :=
  match m with
  | [] => none
  | (d, pats) :: rest => if d = dir then some pats else lookupMatchers rest dir

/-- The ancestor-walking loop of `GitignoreMatcher.ShouldIgnore`: stop
(keep the path) once the current directory leaves the scan root; at a
directory with loaded rules, test the relativised path against each
pattern; on a match exclude, otherwise continue with the parent until it
equals the current directory or `"."`.  `fuel` bounds the ancestor chain
(the Go loop strictly shortens `currentDir`, which the recursion mirrors
with one unit of fuel per ancestor). -/
def shouldIgnoreLoop (m : GitignoreMatcher) (path : String) :
    Nat → String → Bool
  | 0, _ => false
  | fuel + 1, currentDir =>
      let relDir := pathRel m.basePath currentDir
      if strHasPfx relDir.data ['.', '.'] then false
      else
        let hit :=
          match lookupMatchers m.matchers currentDir with
          | some pats =>
              let rp := pathRel currentDir path
              pats.any (fun pat => matchesPattern rp pat)
          | none => false
        if hit then true
        else
          let parentDir := pathDir currentDir
          if parentDir = currentDir ∨ parentDir = "." then false
          else shouldIgnoreLoop m path fuel parentDir

/-- `GitignoreMatcher.ShouldIgnore(path)`: walk the ancestors of the
path's parent directory; the path has at least as many segments as any
ancestor directory of it, so its segment count bounds the chain. -/
def gitignoreShouldIgnore (m : GitignoreMatcher) (path : String) : Bool :=
  shouldIgnoreLoop m path (splitSegs [] path.data).length (pathDir path)

/-- The matcher of the hierarchical-precedence scenario: root rule file
containing `*.log`, nested `project/` rule file containing `*.tmp`. -/
def scenarioMatcher : GitignoreMatcher :=
  { basePath := "root",
    matchers := [("root", ["*.log"]), ("root/project", ["*.tmp"])] }

/-- **C6** With a root rule file containing `*.log` and a nested
`project/` rule file containing `*.tmp`, `ShouldIgnore` returns `true`
for `root/app.log`, `root/project/app.log` (inherited from the root) and
`root/project/app.tmp` (local rule), and `false` for
`root/project/app.go` and `root/app.tmp` — ancestor rules apply to
descendants, while a nested directory's rules never apply outside it. -/
theorem hierarchical_ignore_scenario :
    gitignoreShouldIgnore scenarioMatcher "root/app.log" = true ∧
    gitignoreShouldIgnore scenarioMatcher "root/project/app.log" = true ∧
    gitignoreShouldIgnore scenarioMatcher "root/project/app.tmp" = true ∧
    gitignoreShouldIgnore scenarioMatcher "root/project/app.go" = false ∧
    gitignoreShouldIgnore scenarioMatcher "root/app.tmp" = false := by
  refine ⟨?_, ?_, ?_, ?_, ?_⟩ <;> decide

end Symbolista
